import Mathlib

/-!
# Verification of the ndlkotenocr-lite worker pipeline

Shallow embedding, over `ℚ`, of the numeric and list-manipulating parts of
the OCR worker: the PARSEQ sequence decoder (`text-recognizer.js`), the
layout-detector geometry, IoU and NMS (`layout-detector.js`), the
reading-order reconstructor (`reading-order.js`), the per-region
recognition loop (`ocr-worker.js`), and the task-queue message handler
(`worker-manager.js`).  JavaScript numbers are modelled as rationals; the
one place where a JS division can produce `NaN`/`Infinity`
(`LayoutDetector.calculateIoU`) is modelled with an explicit `JSNum` type.
-/

namespace NdlOcr

/-- JS `Math.round`: rounds half toward positive infinity, `⌊q + 1/2⌋`. -/
def jsRound (q : ℚ) : ℤ := ⌊q + 1/2⌋

/-- Result of a JS floating-point division, with the non-finite outcomes
`0/0 = NaN` and `±x/0 = ±Infinity` made explicit. -/
inductive JSNum where
  | num (q : ℚ)
  | posInf
  | negInf
  | nan
deriving DecidableEq, Repr

/-- JS division `a / b` on (finite) numbers. -/
def jsDiv (a b : ℚ) : JSNum :=
  if b = 0 then
    if a = 0 then JSNum.nan
    else if 0 < a then JSNum.posInf
    else JSNum.negInf
  else JSNum.num (a / b)

/-- JS comparison `x > t` for a `JSNum` left operand and a finite right
operand: any comparison with `NaN` is `false`, `Infinity > t` is `true`. -/
def jsGt (x : JSNum) (t : ℚ) : Bool :=
  match x with
  | JSNum.num q => decide (t < q)
  | JSNum.posInf => true
  | JSNum.negInf => false
  | JSNum.nan => false

/-- JS `c || 0.0` for a number `c`: `0` is falsy, every other number is
truthy. -/
def jsOrZero (c : ℚ) : ℚ := if c = 0 then 0 else c

/-- JS `String.prototype.trim`: strip leading and trailing whitespace. -/
def jsTrim (s : String) : String :=
  ⟨((s.data.dropWhile Char.isWhitespace).reverse.dropWhile
      Char.isWhitespace).reverse⟩

/-! ## Sequence decoder (`TextRecognizer.postprocess` / `decodeOutput`,
`src/worker/text-recognizer.js` lines 338–403) -/

/-- `Math.max(...scores)` followed by `scores.indexOf(maxScore)`:
the first index attaining the maximum score, or `-1` for an empty row
(`Math.max()` is `-Infinity`, which `indexOf` does not find). -/
def argmaxIdx (row : List ℚ) : ℤ :=
  match row.max? with
  | none => -1
  | some m => (row.indexOf m : ℤ)

/-- The scan loop of `postprocess`: for each row take the argmax; `break`
on index 0 (`<eos>`), `continue` (skip) on any index `< 4` (the reserved
tokens), otherwise push `maxIndex - 1`. -/
def decodeIds : List (List ℚ) → List ℕ
  | [] => []
  | row :: rest =>
    let m := argmaxIdx row
    if m = 0 then []
    else if m < 4 then decodeIds rest
    else (m - 1).toNat :: decodeIds rest

/-- The output loop of `postprocess`: walk the class ids keeping a
`prevClassId` (initially `-1`); whenever the id differs from the previous
one, push `charList[classId]` (an out-of-range access joins as the empty
string) and update `prevClassId`. -/
def buildText (charList : List String) : ℤ → List ℕ → List String
  | _, [] => []
  | prev, c :: rest =>
    if (c : ℤ) = prev then buildText charList prev rest
    else charList.getD c "" :: buildText charList c rest

/-- `TextRecognizer.postprocess`: scan, collapse, map to characters,
join. -/
def postprocess (charList : List String) (scores : List (List ℚ)) : String :=
  String.join (buildText charList (-1) (decodeIds scores))

/-- `TextRecognizer.decodeOutput`: `postprocess` followed by `.trim()`. -/
def decodeOutputText (charList : List String) (scores : List (List ℚ)) : String :=
  jsTrim (postprocess charList scores)

/-- The decoder's pending class-id list as the specification describes it:
argmax per position, truncate at the first end-of-sequence symbol, drop
the reserved control symbols, shift by one. -/
def specClassIds (scores : List (List ℚ)) : List ℕ :=
  ((((scores.map argmaxIdx).takeWhile fun m => m ≠ 0).filter
      fun m => ¬ m < 4).map fun m => (m - 1).toNat)

/-! ## Geometry transform (`LayoutDetector.preprocessImage` /
`postprocessOutput`, `layout-detector.js`) -/

/-- Forward coordinate map of the model-space transform: padding to a
square of side `squareSide = max(width, height)` anchored at the origin
leaves a point's coordinate unchanged, and the uniform resize to the
network input scales it by `inputSide / squareSide`. -/
def toModelSpaceCoord (squareSide inputSide x : ℚ) : ℚ :=
  x / squareSide * inputSide

/-- Inverse map for a lower box corner, as in `postprocessOutput`:
`normX1 = x1 / inputSize`, `origX1 = normX1 * maxWH`,
`finalX1 = Math.max(0, Math.round(origX1))`. -/
def toImageSpaceLow (squareSide inputSide x : ℚ) : ℚ :=
  max 0 (jsRound (x / inputSide * squareSide) : ℚ)

/-- Inverse map for an upper box corner, as in `postprocessOutput`:
`finalX2 = Math.min(originalSize, Math.round(normX2 * maxWH))`. -/
def toImageSpaceHigh (squareSide inputSide originalSize x : ℚ) : ℚ :=
  min originalSize (jsRound (x / inputSide * squareSide) : ℚ)

/-! ## Detections, IoU, NMS (`LayoutDetector.applyNMS` /
`calculateIoU`, `layout-detector.js` lines 363–405) -/

/-- A detection box `{x, y, width, height, confidence, classId}`. -/
structure Det where
  x : ℚ
  y : ℚ
  width : ℚ
  height : ℚ
  confidence : ℚ
  classId : ℤ
deriving DecidableEq, Repr

/-- Overlap of two segments `[p, p+w]` and `[q, q+v]`:
`Math.max(0, min(p+w, q+v) - max(p, q))`, as in both `calculateIoU`
and `calculateOverlap`. -/
def segOverlap (p w q v : ℚ) : ℚ :=
  max 0 (min (p + w) (q + v) - max p q)

/-- `Math.max(0, xB - xA) * Math.max(0, yB - yA)` of `calculateIoU`. -/
def interArea (a b : Det) : ℚ :=
  segOverlap a.x a.width b.x b.width * segOverlap a.y a.height b.y b.height

/-- The denominator `boxAArea + boxBArea - interArea` of `calculateIoU`. -/
def unionArea (a b : Det) : ℚ :=
  a.width * a.height + b.width * b.height - interArea a b

/-- `LayoutDetector.calculateIoU`: `interArea / (boxAArea + boxBArea -
interArea)` with JS division semantics (no guard against a zero
denominator). -/
def calculateIoU (a b : Det) : JSNum :=
  jsDiv (interArea a b) (unionArea a b)

/-- The greedy suppression loop of `applyNMS` over the already-sorted
list: keep the head, drop every later box whose IoU with it exceeds the
threshold, recurse on the survivors. -/
def nmsLoop (thr : ℚ) : List Det → List Det
  | [] => []
  | d :: rest =>
    d :: nmsLoop thr (rest.filter fun e => ¬ jsGt (calculateIoU d e) thr)
termination_by l => l.length
decreasing_by
  exact Nat.lt_succ_of_le (List.length_filter_le _ _)

/-- `LayoutDetector.applyNMS`: sort by descending confidence
(comparator `b.confidence - a.confidence`), then greedily keep/suppress. -/
def applyNMS (dets : List Det) (thr : ℚ) : List Det :=
  if dets = [] then []
  else nmsLoop thr
    (dets.mergeSort fun a b => decide (b.confidence ≤ a.confidence))

/-! ## Reading-order reconstructor (`ReadingOrderProcessor`,
`src/worker/reading-order.js`) -/

/-- The nested recognition result `{text, confidence}` attached to a
region by `OCRWorker.processOCR`. -/
structure TextRes where
  text : String
  confidence : ℚ
deriving DecidableEq, Repr

/-- A text block as seen by the reading-order processor: a detection's
geometry and confidence plus the (possibly absent) recognition result. -/
structure Block where
  x : ℚ
  y : ℚ
  width : ℚ
  height : ℚ
  confidence : ℚ
  text : Option TextRes
deriving DecidableEq, Repr

/-- Horizontal center `block.x + block.width / 2`. -/
def centerX (b : Block) : ℚ := b.x + b.width / 2

/-- Vertical center `block.y + block.height / 2`. -/
def centerY (b : Block) : ℚ := b.y + b.height / 2

/-- Mean of a center coordinate over a column/line
(`column.reduce(...) / column.length`). -/
def groupMean (center : Block → ℚ) (col : List Block) : ℚ :=
  (col.map center).sum / col.length

/-- Append the block to the first group whose running mean center is
within `threshold`; `none` when no group qualifies. -/
def addToFirst (center : Block → ℚ) (thr : ℚ) (b : Block) :
    List (List Block) → Option (List (List Block))
  | [] => none
  | col :: rest =>
    if |center b - groupMean center col| ≤ thr then some ((col ++ [b]) :: rest)
    else (addToFirst center thr b rest).map (col :: ·)

/-- One step of the greedy grouping loop: join the first matching group
or start a new one at the end. -/
def groupStep (center : Block → ℚ) (thr : ℚ)
    (cols : List (List Block)) (b : Block) : List (List Block) :=
  match addToFirst center thr b cols with
  | some cols' => cols'
  | none => cols ++ [[b]]

/-- `ReadingOrderProcessor.groupIntoColumns`: greedy single-pass
clustering of the blocks, in input order, by horizontal center. -/
def groupIntoColumns (blocks : List Block) (thr : ℚ) : List (List Block) :=
  blocks.foldl (groupStep centerX thr) []

/-- `ReadingOrderProcessor.groupIntoLines`: the same loop over vertical
centers. -/
def groupIntoLines (blocks : List Block) (thr : ℚ) : List (List Block) :=
  blocks.foldl (groupStep centerY thr) []

/-- `ReadingOrderProcessor.sortColumnsByDirection`: sort the columns by
mean horizontal center, descending for `right-to-left`, ascending
otherwise. -/
def sortColumnsByDirection (cols : List (List Block)) (direction : String) :
    List (List Block) :=
  if direction = "right-to-left" then
    cols.mergeSort fun a b =>
      decide (groupMean centerX b ≤ groupMean centerX a)
  else
    cols.mergeSort fun a b =>
      decide (groupMean centerX a ≤ groupMean centerX b)

/-- `ReadingOrderProcessor.processVerticalReading`: group into columns,
order the columns, sort each column top-to-bottom, concatenate. -/
def processVerticalReading (blocks : List Block) (columnDirection : String)
    (groupThreshold : ℚ) : List Block :=
  let columns := groupIntoColumns blocks groupThreshold
  let sortedColumns := sortColumnsByDirection columns columnDirection
  (sortedColumns.map fun col =>
    col.mergeSort fun a b => decide (a.y ≤ b.y)).flatten

/-- `ReadingOrderProcessor.processHorizontalReading`: group into lines,
order the lines top-to-bottom, sort each line by the column direction,
concatenate. -/
def processHorizontalReading (blocks : List Block) (columnDirection : String)
    (groupThreshold : ℚ) : List Block :=
  let lines := groupIntoLines blocks groupThreshold
  let sortedLines := lines.mergeSort fun a b =>
    decide (groupMean centerY a ≤ groupMean centerY b)
  (sortedLines.map fun line =>
    if columnDirection = "left-to-right" then
      line.mergeSort fun a b => decide (a.x ≤ b.x)
    else
      line.mergeSort fun a b => decide (b.x ≤ a.x)).flatten

/-- The validity filter of `ReadingOrderProcessor.process`: confidence at
least `minConfidence`, a truthy `text` object with a truthy (nonempty)
`text.text` whose trim is nonempty. -/
def isValidBlock (minConfidence : ℚ) (b : Block) : Bool :=
  match b.text with
  | none => false
  | some t =>
    decide (minConfidence ≤ b.confidence) && !(t.text == "") &&
      decide (0 < (jsTrim t.text).length)

/-- `ReadingOrderProcessor.process`: filter, order according to the
reading direction, and attach a dense 1-based `readingOrder`. -/
def process (textBlocks : List Block) (readingDirection columnDirection : String)
    (groupThreshold minConfidence : ℚ) : List (Block × ℕ) :=
  if textBlocks = [] then []
  else
    let validBlocks := textBlocks.filter (isValidBlock minConfidence)
    if validBlocks = [] then []
    else
      let orderedBlocks :=
        if readingDirection = "vertical" then
          processVerticalReading validBlocks columnDirection groupThreshold
        else
          processHorizontalReading validBlocks columnDirection groupThreshold
      orderedBlocks.enum.map fun p => (p.2, p.1 + 1)

/-- The `overlapArea` of `ReadingOrderProcessor.calculateOverlap`. -/
def blockOverlapArea (a b : Block) : ℚ :=
  segOverlap a.x a.width b.x b.width * segOverlap a.y a.height b.y b.height

/-- The `unionArea` of `ReadingOrderProcessor.calculateOverlap`. -/
def blockUnionArea (a b : Block) : ℚ :=
  a.width * a.height + b.width * b.height - blockOverlapArea a b

/-- `ReadingOrderProcessor.calculateOverlap`: guarded
intersection-over-union of two blocks, `0` when the union is not
positive (`unionArea > 0 ? overlapArea / unionArea : 0`). -/
def calculateOverlap (a b : Block) : ℚ :=
  if 0 < blockUnionArea a b then blockOverlapArea a b / blockUnionArea a b
  else 0

/-! ## Per-region recognition loop (`TextRecognizer.recognize`,
`OCRWorker.processOCR`, lines 134–158 of `ocr-worker.js`) -/

/-- `TextRecognizer.recognize`: the crop/preprocess/inference/decode
chain, whose fallible part is abstracted as an oracle, wrapped in the
`try/catch` that converts any failure into
`{ text: '', confidence: 0.0 }`. -/
def recognizeRegion (oracle : Block → Except String TextRes) (r : Block) :
    TextRes :=
  match oracle r with
  | Except.ok t => t
  | Except.error _ => ⟨"", 0⟩

/-- The recognition loop of `OCRWorker.processOCR`: every region yields
`{ ...region, text, confidence: text.confidence || 0.0 }`, in order. -/
def processRegions (oracle : Block → Except String TextRes)
    (regions : List Block) : List Block :=
  regions.map fun r =>
    let t := recognizeRegion oracle r
    { r with text := some t, confidence := jsOrZero t.confidence }

/-! ## Task queue / message handler (`WorkerMessageHandler`,
`worker-manager.js`) -/

/-- A queued OCR task: its id and its submission timestamp. -/
structure Task where
  id : ℕ
  timestamp : ℤ
deriving DecidableEq, Repr

/-- The observable state of a `WorkerMessageHandler`: the task queue (a
JS `Map` in insertion order), the busy flag and current task id, whether
a worker exists and which generation it is, and event logs of dispatched
ids and rejected/resolved promises. -/
structure HandlerState where
  taskQueue : List Task
  currentTaskId : Option ℕ
  isWorkerBusy : Bool
  workerAlive : Bool
  generation : ℕ
  dispatched : List ℕ
  resolved : List ℕ
  rejected : List (ℕ × String)
deriving DecidableEq, Repr

/-- `WorkerMessageHandler.processNextTask`: return unchanged when busy or
the queue is empty; otherwise dispatch the task with the oldest
timestamp (`Array.from(values()).sort((a,b) => a.timestamp -
b.timestamp)[0]`), setting the busy flag and current id. -/
def processNextTask (s : HandlerState) : HandlerState :=
  if s.isWorkerBusy ∨ s.taskQueue = [] then s
  else
    match (s.taskQueue.mergeSort fun a b =>
        decide (a.timestamp ≤ b.timestamp)).head? with
    | none => s
    | some t =>
      { s with isWorkerBusy := true, currentTaskId := some t.id,
               dispatched := s.dispatched ++ [t.id] }

/-- `WorkerMessageHandler.processOCR`: append the new task to the queue
and, when the worker is not busy, run `processNextTask`. -/
def submitTask (s : HandlerState) (t : Task) : HandlerState :=
  let s' := { s with taskQueue := s.taskQueue ++ [t] }
  if s.isWorkerBusy then s' else processNextTask s'

/-- `WorkerMessageHandler.handleTaskComplete`: resolve and delete the
finished task, clear the busy flag and current id, then dispatch the
next task. -/
def handleTaskComplete (s : HandlerState) (taskId : ℕ) : HandlerState :=
  let s1 :=
    if s.taskQueue.any fun t => t.id == taskId then
      { s with resolved := s.resolved ++ [taskId],
               taskQueue := s.taskQueue.filter fun t => t.id ≠ taskId }
    else s
  processNextTask
    { s1 with isWorkerBusy := false, currentTaskId := none }

/-- `WorkerMessageHandler.terminateWorker`: kill the worker, reject every
unfinished task with "Worker terminated", clear the queue and the flags. -/
def terminateWorker (s : HandlerState) : HandlerState :=
  let s1 := if s.workerAlive then { s with workerAlive := false } else s
  { s1 with
    rejected := s1.rejected ++ s1.taskQueue.map fun t => (t.id, "Worker terminated"),
    taskQueue := [],
    isWorkerBusy := false,
    currentTaskId := none }

/-- `WorkerMessageHandler.initializeWorker`: terminate any existing
worker, then create a fresh one (a new generation). -/
def initializeWorker (s : HandlerState) : HandlerState :=
  let s1 := if s.workerAlive then terminateWorker s else s
  { s1 with workerAlive := true, generation := s1.generation + 1 }

/-- `WorkerMessageHandler.cancelCurrentTask`: when a task is in flight,
reject it with "Task cancelled" and delete it, clear the flags, then
tear down and recreate the worker. -/
def cancelCurrentTask (s : HandlerState) : HandlerState :=
  match s.currentTaskId with
  | none => s
  | some id =>
    let s1 :=
      if s.taskQueue.any fun t => t.id == id then
        { s with rejected := s.rejected ++ [(id, "Task cancelled")],
                 taskQueue := s.taskQueue.filter fun t => t.id ≠ id }
      else s
    let s2 := { s1 with isWorkerBusy := false, currentTaskId := none }
    initializeWorker (terminateWorker s2)

/-- `WorkerMessageHandler.cancelAllTasks`: reject every queued task with
"All tasks cancelled", clear the queue and flags, then tear down and
recreate the worker. -/
def cancelAllTasks (s : HandlerState) : HandlerState :=
  let s1 :=
    { s with rejected := s.rejected ++ s.taskQueue.map fun t => (t.id, "All tasks cancelled"),
             taskQueue := [],
             isWorkerBusy := false,
             currentTaskId := none }
  initializeWorker (terminateWorker s1)

/-! ## Helper lemmas -/

theorem segOverlap_nonneg (p w q v : ℚ) : 0 ≤ segOverlap p w q v :=
  le_max_left 0 _

theorem segOverlap_le_left (h : 0 < segOverlap p w q v) :
    segOverlap p w q v ≤ w := by
  unfold segOverlap at *
  rcases max_cases (0 : ℚ) (min (p + w) (q + v) - max p q) with ⟨h1, _⟩ | ⟨h1, _⟩
  · rw [h1] at h; exact absurd h (lt_irrefl 0)
  · rw [h1]
    have := min_le_left (p + w) (q + v)
    have := le_max_left p q
    linarith

theorem segOverlap_le_right (h : 0 < segOverlap p w q v) :
    segOverlap p w q v ≤ v := by
  unfold segOverlap at *
  rcases max_cases (0 : ℚ) (min (p + w) (q + v) - max p q) with ⟨h1, _⟩ | ⟨h1, _⟩
  · rw [h1] at h; exact absurd h (lt_irrefl 0)
  · rw [h1]
    have := min_le_right (p + w) (q + v)
    have := le_max_right p q
    linarith

/-- A positive overlap area is at most either box's own area. -/
theorem overlapArea_le_areas
    {px pw py ph qx qw qy qh : ℚ}
    (h : 0 < segOverlap px pw qx qw * segOverlap py ph qy qh) :
    segOverlap px pw qx qw * segOverlap py ph qy qh ≤ pw * ph ∧
      segOverlap px pw qx qw * segOverlap py ph qy qh ≤ qw * qh := by
  have hX0 : 0 ≤ segOverlap px pw qx qw := segOverlap_nonneg _ _ _ _
  have hY0 : 0 ≤ segOverlap py ph qy qh := segOverlap_nonneg _ _ _ _
  have hXY : 0 < segOverlap px pw qx qw ∧ 0 < segOverlap py ph qy qh := by
    rcases mul_pos_iff.mp h with h' | h'
    · exact h'
    · exact absurd h'.1 (not_lt.mpr hX0)
  have h1 : segOverlap px pw qx qw ≤ pw := segOverlap_le_left hXY.1
  have h2 : segOverlap py ph qy qh ≤ ph := segOverlap_le_left hXY.2
  have h3 : segOverlap px pw qx qw ≤ qw := segOverlap_le_right hXY.1
  have h4 : segOverlap py ph qy qh ≤ qh := segOverlap_le_right hXY.2
  exact ⟨mul_le_mul h1 h2 hY0 (le_trans hXY.1.le h1),
    mul_le_mul h3 h4 hY0 (le_trans hXY.1.le h3)⟩

theorem interArea_nonneg (a b : Det) : 0 ≤ interArea a b :=
  mul_nonneg (segOverlap_nonneg _ _ _ _) (segOverlap_nonneg _ _ _ _)

/-- A positive intersection area forces a positive union area. -/
theorem unionArea_pos_of_interArea_pos {a b : Det}
    (h : 0 < interArea a b) : 0 < unionArea a b := by
  have hle := @overlapArea_le_areas a.x a.width a.y a.height b.x b.width b.y
    b.height h
  unfold unionArea interArea at *
  linarith [hle.1, hle.2]

/-- JS `Math.round` is within `1/2` of its argument. -/
theorem jsRound_close (q : ℚ) : |(jsRound q : ℚ) - q| ≤ 1/2 := by
  unfold jsRound
  rw [abs_le]
  constructor
  · have := Int.sub_one_lt_floor (q + 1/2)
    push_cast at this ⊢
    linarith
  · have := Int.floor_le (q + 1/2)
    push_cast at this ⊢
    linarith

/-! ## C1: the sequence decoder -/

/-- The imperative scan with `break`/`continue` computes exactly the
takeWhile/filter/map pipeline of the specification. -/
theorem decodeIds_eq_specClassIds (scores : List (List ℚ)) :
    decodeIds scores = specClassIds scores := by
  induction scores with
  | nil => rfl
  | cons row rest ih =>
    by_cases h0 : argmaxIdx row = 0
    · simp [decodeIds, specClassIds, List.takeWhile_cons, h0]
    · by_cases h4 : argmaxIdx row < 4
      · simpa [decodeIds, specClassIds, List.takeWhile_cons,
          List.filter_cons, h0, h4] using ih
      · simpa [decodeIds, specClassIds, List.takeWhile_cons,
          List.filter_cons, h0, h4, not_lt.mp h4] using ih

/-- The `prevClassId` loop of `postprocess`, run from a concrete previous
id, is `destutter'` followed by the character lookup. -/
theorem buildText_destutter_aux (cl : List String) (l : List ℕ) :
    ∀ a : ℕ, (l.destutter' Ne a).map (fun i => cl.getD i "") =
      cl.getD a "" :: buildText cl (a : ℤ) l := by
  induction l with
  | nil => intro a; simp [List.destutter', buildText]
  | cons b l ih =>
    intro a
    by_cases hab : a = b
    · subst hab
      rw [List.destutter'_cons, if_neg (not_not_intro rfl)]
      have hbt : buildText cl (a : ℤ) (a :: l) = buildText cl (a : ℤ) l := by
        simp [buildText]
      rw [hbt]
      exact ih a
    · rw [List.destutter'_cons, if_pos hab]
      have hbt : buildText cl (a : ℤ) (b :: l) =
          cl.getD b "" :: buildText cl (b : ℤ) l := by
        have hf : ((b : ℤ) = (a : ℤ)) = False := by
          simp only [Int.natCast_inj, eq_iff_iff, iff_false]
          exact Ne.symm hab
        simp [buildText, hf]
      rw [List.map_cons, ih b, hbt]

/-- The `prevClassId` loop started at `-1` collapses exactly the adjacent
duplicates (`List.destutter Ne`). -/
theorem buildText_destutter (cl : List String) (l : List ℕ) :
    buildText cl (-1) l =
      (l.destutter Ne).map (fun i => cl.getD i "") := by
  cases l with
  | nil => rfl
  | cons c l =>
    have hc : ((c : ℤ) = -1) = False := by
      simp only [eq_iff_iff, iff_false]
      omega
    rw [buildText, List.destutter, buildText_destutter_aux cl l c]
    simp [hc]

/-- C1: the decoder scans positions in order taking at each position the
first index of the maximum score, stops at the first argmax `0`, skips
argmaxes `1`–`3`, appends `argmax - 1` otherwise; the pending class-id
list is then collapsed by adjacent-duplicate removal (`destutter`),
mapped to characters in order, joined, and trimmed. -/
theorem decoder_characterization (charList : List String)
    (scores : List (List ℚ)) :
    (decodeOutputText charList scores =
      jsTrim (String.join (((specClassIds scores).destutter Ne).map
        fun i => charList.getD i ""))) ∧
    ∀ row : List ℚ, row ≠ [] → ∃ k : ℕ, argmaxIdx row = (k : ℤ) ∧
      k < row.length ∧ (∀ j, j < row.length → row.getD j 0 ≤ row.getD k 0) ∧
      ∀ j, j < k → row.getD j 0 < row.getD k 0 := by
  constructor
  · unfold decodeOutputText postprocess
    rw [decodeIds_eq_specClassIds, buildText_destutter]
  · intro row hrow
    obtain ⟨m, hm⟩ : ∃ m, row.max? = some m := by
      cases hmax : row.max? with
      | none => exact absurd (List.max?_eq_none_iff.mp hmax) hrow
      | some m => exact ⟨m, rfl⟩
    have hmem : m ∈ row := List.max?_mem max_choice hm
    have hub : ∀ b ∈ row, b ≤ m :=
      (List.max?_le_iff (fun _ _ _ => max_le_iff) hm).mp le_rfl
    refine ⟨row.indexOf m, ?_, ?_, ?_, ?_⟩
    · unfold argmaxIdx
      rw [hm]
    · exact List.indexOf_lt_length.mpr hmem
    · intro j hj
      have hk : row.indexOf m < row.length :=
        List.indexOf_lt_length.mpr hmem
      rw [List.getD_eq_getElem?_getD, List.getD_eq_getElem?_getD,
        List.getElem?_eq_getElem hj, List.getElem?_eq_getElem hk]
      simp only [Option.getD_some]
      rw [List.getElem_indexOf hk]
      exact hub _ (List.getElem_mem hj)
    · intro j hj
      have hk : row.indexOf m < row.length :=
        List.indexOf_lt_length.mpr hmem
      have hjlen : j < row.length := lt_trans hj hk
      have hne : (row.get ⟨j, hjlen⟩ == m) = false :=
        List.not_of_lt_findIdx hj
      rw [List.getD_eq_getElem?_getD, List.getD_eq_getElem?_getD,
        List.getElem?_eq_getElem hjlen, List.getElem?_eq_getElem hk]
      simp only [Option.getD_some]
      rw [List.getElem_indexOf hk]
      refine lt_of_le_of_ne (hub _ (List.getElem_mem hjlen)) ?_
      simpa using hne

/-- C1 witness: the argmax of the row `[3, 7, 7, 1]` is its first
maximal index `1`, it bounds every entry, and all earlier entries are
strictly smaller. -/
theorem decoder_characterization_witness :
    ∃ k : ℕ, argmaxIdx [(3 : ℚ), 7, 7, 1] = (k : ℤ) ∧
      k < [(3 : ℚ), 7, 7, 1].length ∧
      (∀ j, j < [(3 : ℚ), 7, 7, 1].length →
        [(3 : ℚ), 7, 7, 1].getD j 0 ≤ [(3 : ℚ), 7, 7, 1].getD k 0) ∧
      ∀ j, j < k → [(3 : ℚ), 7, 7, 1].getD j 0 < [(3 : ℚ), 7, 7, 1].getD k 0 :=
  (decoder_characterization [] []).2 [(3 : ℚ), 7, 7, 1] (by simp)

/-! ## C2: geometry round trip -/

/-- C2: for any point coordinate inside the original image bounds
(`0 ≤ x ≤ originalSize`), mapping through the model-space transform
(pad to the `max(width,height)` square, resize to the input resolution)
and back through the inverse used by `postprocessOutput` (divide by the
input side, multiply by the square side, round, clip) reproduces the
coordinate within rounding tolerance (`1/2`), for both the
lower-corner and the upper-corner form of the clip. -/
theorem geometry_roundtrip (squareSide inputSide originalSize x : ℚ)
    (hs : 0 < squareSide) (hi : 0 < inputSide)
    (hx0 : 0 ≤ x) (hx1 : x ≤ originalSize) :
    |toImageSpaceLow squareSide inputSide
        (toModelSpaceCoord squareSide inputSide x) - x| ≤ 1/2 ∧
    |toImageSpaceHigh squareSide inputSide originalSize
        (toModelSpaceCoord squareSide inputSide x) - x| ≤ 1/2 := by
  have hback : toModelSpaceCoord squareSide inputSide x / inputSide *
      squareSide = x := by
    unfold toModelSpaceCoord
    field_simp
    ring
  have hclose : |(jsRound (toModelSpaceCoord squareSide inputSide x /
      inputSide * squareSide) : ℚ) - x| ≤ 1/2 := by
    rw [hback]; exact jsRound_close x
  set r : ℚ := (jsRound (toModelSpaceCoord squareSide inputSide x /
      inputSide * squareSide) : ℚ) with hr
  rw [abs_le] at hclose
  constructor
  · unfold toImageSpaceLow
    rw [← hr]
    rcases max_cases (0 : ℚ) r with ⟨h1, h2⟩ | ⟨h1, h2⟩
    · rw [h1, abs_le]
      constructor <;> linarith
    · rw [h1, abs_le]
      constructor <;> linarith
  · unfold toImageSpaceHigh
    rw [← hr]
    rcases min_cases originalSize r with ⟨h1, h2⟩ | ⟨h1, h2⟩
    · rw [h1, abs_le]
      constructor <;> linarith
    · rw [h1, abs_le]
      constructor <;> linarith

/-- C2 witness: the round trip at `x = 997/10` in a `150`-wide image
padded to a `200`-square and resized to `1024`. -/
theorem geometry_roundtrip_witness :
    |toImageSpaceLow 200 1024 (toModelSpaceCoord 200 1024 (997/10)) -
        997/10| ≤ 1/2 ∧
    |toImageSpaceHigh 200 1024 150 (toModelSpaceCoord 200 1024 (997/10)) -
        997/10| ≤ 1/2 :=
  geometry_roundtrip 200 1024 150 (997/10) (by norm_num) (by norm_num)
    (by norm_num) (by norm_num)

/-! ## C4: the detector's IoU -/

/-- C4 counterexample: for two zero-area boxes the union area is `0` and
`calculateIoU` returns JS `NaN` (`0/0`), not `0`. -/
theorem calculateIoU_zero_union_nan :
    unionArea ⟨0, 0, 0, 0, 1, 0⟩ ⟨0, 0, 0, 0, 1, 0⟩ = 0 ∧
      calculateIoU ⟨0, 0, 0, 0, 1, 0⟩ ⟨0, 0, 0, 0, 1, 0⟩ ≠ JSNum.num 0 := by
  constructor
  · norm_num [unionArea, interArea, segOverlap]
  · simp [calculateIoU, jsDiv, unionArea, interArea, segOverlap]

/-- C4 (amended): `calculateIoU` returns intersection-area divided by
union-area whenever the union-area is nonzero; when the union-area is
`0` it returns `NaN` (the JS result of `0/0`), not `0`. -/
theorem calculateIoU_characterization (a b : Det) :
    (unionArea a b ≠ 0 →
        calculateIoU a b = JSNum.num (interArea a b / unionArea a b)) ∧
    (unionArea a b = 0 → calculateIoU a b = JSNum.nan) := by
  constructor
  · intro h
    unfold calculateIoU jsDiv
    rw [if_neg h]
  · intro h
    have hinter : interArea a b = 0 := by
      rcases lt_or_eq_of_le (interArea_nonneg a b) with h' | h'
      · have := unionArea_pos_of_interArea_pos h'
        rw [h] at this
        exact absurd this (lt_irrefl 0)
      · exact h'.symm
    unfold calculateIoU jsDiv
    rw [if_pos h, if_pos hinter]

/-- C4 witness: two identical unit boxes have union area `1 ≠ 0` and IoU
`num 1`. -/
theorem calculateIoU_characterization_witness :
    calculateIoU ⟨0, 0, 1, 1, 1, 0⟩ ⟨0, 0, 1, 1, 1, 0⟩ =
      JSNum.num (interArea ⟨0, 0, 1, 1, 1, 0⟩ ⟨0, 0, 1, 1, 1, 0⟩ /
        unionArea ⟨0, 0, 1, 1, 1, 0⟩ ⟨0, 0, 1, 1, 1, 0⟩) :=
  (calculateIoU_characterization _ _).1
    (by norm_num [unionArea, interArea, segOverlap])

/-! ## C3: greedy NMS -/

theorem nmsLoop_sublist (thr : ℚ) : ∀ l : List Det,
    List.Sublist (nmsLoop thr l) l
  | [] => by
    rw [nmsLoop]
  | d :: rest => by
    rw [nmsLoop]
    exact List.Sublist.cons₂ d
      ((nmsLoop_sublist thr _).trans (List.filter_sublist _))
termination_by l => l.length
decreasing_by
  exact Nat.lt_succ_of_le (List.length_filter_le _ _)

theorem nmsLoop_pairwise (thr : ℚ) : ∀ l : List Det,
    (nmsLoop thr l).Pairwise fun a b => jsGt (calculateIoU a b) thr = false
  | [] => by
    rw [nmsLoop]
    exact List.Pairwise.nil
  | d :: rest => by
    rw [nmsLoop]
    refine List.Pairwise.cons ?_ (nmsLoop_pairwise thr _)
    intro b hb
    have hbf : b ∈ rest.filter fun e => ¬ jsGt (calculateIoU d e) thr :=
      (nmsLoop_sublist thr _).subset hb
    have hbp := (List.mem_filter.mp hbf).2
    simpa using hbp
termination_by l => l.length
decreasing_by
  exact Nat.lt_succ_of_le (List.length_filter_le _ _)

/-- Two boxes of positive dimensions have positive union area. -/
theorem unionArea_pos_of_dims {a b : Det} (ha : 0 < a.width)
    (hb : 0 < a.height) (hc : 0 < b.width) (hd : 0 < b.height) :
    0 < unionArea a b := by
  rcases lt_or_eq_of_le (interArea_nonneg a b) with h | h
  · exact unionArea_pos_of_interArea_pos h
  · have h1 := mul_pos ha hb
    have h2 := mul_pos hc hd
    unfold unionArea
    rw [← h]
    linarith

/-- C3: for any input list of detections of positive dimensions, greedy
NMS keeps a list in which any two detections have IoU at most the
threshold, of length at most the input length, ordered by descending
confidence. -/
theorem applyNMS_valid (dets : List Det) (thr : ℚ)
    (hpos : ∀ d ∈ dets, 0 < d.width ∧ 0 < d.height) :
    (applyNMS dets thr).Pairwise
      (fun a b => ∃ q, calculateIoU a b = JSNum.num q ∧ q ≤ thr) ∧
    (applyNMS dets thr).length ≤ dets.length ∧
    (applyNMS dets thr).Pairwise
      fun a b => b.confidence ≤ a.confidence := by
  by_cases hnil : dets = []
  · subst hnil
    simp [applyNMS]
  · unfold applyNMS
    rw [if_neg hnil]
    have hsub : List.Sublist
        (nmsLoop thr
          (dets.mergeSort fun a b => decide (b.confidence ≤ a.confidence)))
        (dets.mergeSort fun a b => decide (b.confidence ≤ a.confidence)) :=
      nmsLoop_sublist thr _
    have hmemdets : ∀ x ∈ nmsLoop thr
        (dets.mergeSort fun a b => decide (b.confidence ≤ a.confidence)),
        x ∈ dets := fun x hx => List.mem_mergeSort.mp (hsub.subset hx)
    refine ⟨?_, ?_, ?_⟩
    · refine (nmsLoop_pairwise thr _).imp_of_mem ?_
      intro a b ha hb hR
      obtain ⟨ha1, ha2⟩ := hpos a (hmemdets a ha)
      obtain ⟨hb1, hb2⟩ := hpos b (hmemdets b hb)
      have hu : unionArea a b ≠ 0 :=
        ne_of_gt (unionArea_pos_of_dims ha1 ha2 hb1 hb2)
      have hiou := (calculateIoU_characterization a b).1 hu
      refine ⟨interArea a b / unionArea a b, hiou, ?_⟩
      rw [hiou] at hR
      simp only [jsGt, decide_eq_false_iff_not] at hR
      exact not_lt.mp hR
    · calc (nmsLoop thr
            (dets.mergeSort fun a b =>
              decide (b.confidence ≤ a.confidence))).length
          ≤ (dets.mergeSort fun a b =>
              decide (b.confidence ≤ a.confidence)).length :=
            hsub.length_le
        _ = dets.length := List.length_mergeSort dets
    · have htrans : ∀ a b c : Det,
          decide (b.confidence ≤ a.confidence) →
          decide (c.confidence ≤ b.confidence) →
          decide (c.confidence ≤ a.confidence) := by
        intro a b c h1 h2
        simp only [decide_eq_true_eq] at *
        exact le_trans h2 h1
      have htotal : ∀ a b : Det,
          (decide (b.confidence ≤ a.confidence) ||
            decide (a.confidence ≤ b.confidence)) = true := by
        intro a b
        rcases le_total a.confidence b.confidence with h | h <;> simp [h]
      have hpair := List.sorted_mergeSort htrans htotal dets
      refine (hpair.sublist hsub).imp ?_
      intro a b h
      simpa using h


/-- C3 witness: NMS applied to two overlapping positive-size boxes keeps
a pairwise-low-IoU, confidence-sorted list no longer than the input. -/
theorem applyNMS_valid_witness :
    (applyNMS [⟨0, 0, 10, 10, 9/10, 0⟩, ⟨1, 1, 10, 10, 8/10, 0⟩]
        (1/2)).Pairwise
      (fun a b => ∃ q, calculateIoU a b = JSNum.num q ∧ q ≤ 1/2) ∧
    (applyNMS [⟨0, 0, 10, 10, 9/10, 0⟩, ⟨1, 1, 10, 10, 8/10, 0⟩]
        (1/2)).length ≤
      [(⟨0, 0, 10, 10, 9/10, 0⟩ : Det), ⟨1, 1, 10, 10, 8/10, 0⟩].length ∧
    (applyNMS [⟨0, 0, 10, 10, 9/10, 0⟩, ⟨1, 1, 10, 10, 8/10, 0⟩]
        (1/2)).Pairwise
      fun a b => b.confidence ≤ a.confidence := by
  refine applyNMS_valid _ _ ?_
  intro d hd
  rcases List.mem_cons.mp hd with rfl | hd
  · norm_num
  rcases List.mem_cons.mp hd with rfl | hd
  · norm_num
  · simp at hd

/-! ## C6: column grouping and ordering -/

/-- When `addToFirst` succeeds, the flattened groups gain exactly the new
block. -/
theorem addToFirst_flatten (center : Block → ℚ) (thr : ℚ) (b : Block) :
    ∀ (cols cols' : List (List Block)),
      addToFirst center thr b cols = some cols' →
      List.Perm cols'.flatten (b :: cols.flatten) := by
  intro cols
  induction cols with
  | nil => intro cols' h; exact absurd h (by simp [addToFirst])
  | cons col rest ih =>
    intro cols' h
    unfold addToFirst at h
    by_cases hc : |center b - groupMean center col| ≤ thr
    · rw [if_pos hc] at h
      obtain rfl : (col ++ [b]) :: rest = cols' := Option.some.inj h
      simp only [List.flatten_cons, List.append_assoc, List.singleton_append]
      exact List.perm_middle
    · rw [if_neg hc] at h
      obtain ⟨cs, hcs, rfl⟩ := Option.map_eq_some'.mp h
      simp only [List.flatten_cons]
      exact (List.Perm.append_left col (ih cs hcs)).trans List.perm_middle

/-- One grouping step adds exactly the new block to the flattened
groups. -/
theorem groupStep_flatten (center : Block → ℚ) (thr : ℚ)
    (cols : List (List Block)) (b : Block) :
    List.Perm (groupStep center thr cols b).flatten (b :: cols.flatten) := by
  unfold groupStep
  cases h : addToFirst center thr b cols with
  | some cols' => exact addToFirst_flatten center thr b cols cols' h
  | none =>
    simp only [List.flatten_append, List.flatten_cons, List.flatten_nil,
      List.append_nil]
    exact List.perm_append_singleton b cols.flatten

/-- The greedy grouping fold partitions its input: flattening the groups
gives back the starting blocks plus the processed ones. -/
theorem groupFold_flatten (center : Block → ℚ) (thr : ℚ) :
    ∀ (l : List Block) (cols : List (List Block)),
      List.Perm (l.foldl (groupStep center thr) cols).flatten
        (cols.flatten ++ l) := by
  intro l
  induction l with
  | nil => intro cols; simp
  | cons b l ih =>
    intro cols
    rw [List.foldl_cons]
    exact (ih _).trans
      ((List.Perm.append_right l
        (groupStep_flatten center thr cols b)).trans List.perm_middle.symm)

/-- `groupIntoColumns` partitions the blocks. -/
theorem groupIntoColumns_flatten (blocks : List Block) (thr : ℚ) :
    List.Perm (groupIntoColumns blocks thr).flatten blocks := by
  simpa using groupFold_flatten centerX thr blocks []

/-- `groupIntoLines` partitions the blocks. -/
theorem groupIntoLines_flatten (blocks : List Block) (thr : ℚ) :
    List.Perm (groupIntoLines blocks thr).flatten blocks := by
  simpa using groupFold_flatten centerY thr blocks []

/-- A block used in the clustering example: center `x + w/2`, full
confidence, nonempty text. -/
def exBlock (x w : ℚ) : Block := ⟨x, 0, w, 10, 1, some ⟨"t", 1⟩⟩

/-- C6: the greedy clustering assigns every region to exactly one column
(the flattened columns are a permutation of the input); right-to-left
ordering sorts columns by descending mean horizontal center; and on the
four boxes with centers 10, 12, 200, 600 at threshold 20, the boxes at
10 and 12 share one column, 200 and 600 get their own, and right-to-left
ordering yields the 600-column, the 200-column, then the 10/12-column. -/
theorem grouping_and_ordering (blocks : List Block) (thr : ℚ)
    (cols : List (List Block)) :
    List.Perm (groupIntoColumns blocks thr).flatten blocks ∧
    (sortColumnsByDirection cols "right-to-left").Pairwise
      (fun a b => groupMean centerX b ≤ groupMean centerX a) ∧
    groupIntoColumns
        [exBlock 5 10, exBlock 7 10, exBlock 195 10, exBlock 595 10] 20 =
      [[exBlock 5 10, exBlock 7 10], [exBlock 195 10], [exBlock 595 10]] ∧
    sortColumnsByDirection
        [[exBlock 5 10, exBlock 7 10], [exBlock 195 10], [exBlock 595 10]]
        "right-to-left" =
      [[exBlock 595 10], [exBlock 195 10], [exBlock 5 10, exBlock 7 10]] := by
  refine ⟨groupIntoColumns_flatten blocks thr, ?_, ?_, ?_⟩
  · unfold sortColumnsByDirection
    rw [if_pos rfl]
    have htrans : ∀ a b c : List Block,
        decide (groupMean centerX b ≤ groupMean centerX a) →
        decide (groupMean centerX c ≤ groupMean centerX b) →
        decide (groupMean centerX c ≤ groupMean centerX a) := by
      intro a b c h1 h2
      simp only [decide_eq_true_eq] at *
      exact le_trans h2 h1
    have htotal : ∀ a b : List Block,
        (decide (groupMean centerX b ≤ groupMean centerX a) ||
          decide (groupMean centerX a ≤ groupMean centerX b)) = true := by
      intro a b
      rcases le_total (groupMean centerX a) (groupMean centerX b) with h | h <;>
        simp [h]
    refine (List.sorted_mergeSort htrans htotal cols).imp ?_
    intro a b h
    simpa using h
  · norm_num [groupIntoColumns, List.foldl, groupStep, addToFirst, groupMean,
      centerX, abs_le, exBlock]
  · norm_num [sortColumnsByDirection, List.mergeSort, groupMean, centerX,
      exBlock, List.merge]

/-! ## C9: the ordered output only contains valid blocks -/

/-- Vertical reading ordering only permutes the blocks it is given. -/
theorem mem_processVerticalReading {blocks : List Block}
    {columnDirection : String} {thr : ℚ} {b : Block}
    (h : b ∈ processVerticalReading blocks columnDirection thr) :
    b ∈ blocks := by
  unfold processVerticalReading at h
  rw [List.mem_flatten] at h
  obtain ⟨l, hl, hbl⟩ := h
  rw [List.mem_map] at hl
  obtain ⟨col, hcol, rfl⟩ := hl
  have hb2 : b ∈ col := List.mem_mergeSort.mp hbl
  have hcol2 : col ∈ groupIntoColumns blocks thr := by
    unfold sortColumnsByDirection at hcol
    split at hcol <;> exact List.mem_mergeSort.mp hcol
  exact (groupIntoColumns_flatten blocks thr).subset
    (List.mem_flatten.mpr ⟨col, hcol2, hb2⟩)

/-- Horizontal reading ordering only permutes the blocks it is given. -/
theorem mem_processHorizontalReading {blocks : List Block}
    {columnDirection : String} {thr : ℚ} {b : Block}
    (h : b ∈ processHorizontalReading blocks columnDirection thr) :
    b ∈ blocks := by
  unfold processHorizontalReading at h
  rw [List.mem_flatten] at h
  obtain ⟨l, hl, hbl⟩ := h
  rw [List.mem_map] at hl
  obtain ⟨line, hline, rfl⟩ := hl
  have hb2 : b ∈ line := by
    split at hbl <;> exact List.mem_mergeSort.mp hbl
  have hline2 : line ∈ groupIntoLines blocks thr := List.mem_mergeSort.mp hline
  exact (groupIntoLines_flatten blocks thr).subset
    (List.mem_flatten.mpr ⟨line, hline2, hb2⟩)

/-- C9: every block in the ordered list returned by
`ReadingOrderProcessor.process` passed the validity filter: its
confidence is at least the minimum-confidence threshold and its decoded
text is present, nonempty and nonempty after trimming — so a region
whose recognition failed (empty text, confidence 0) never appears. -/
theorem process_output_valid (textBlocks : List Block)
    (readingDirection columnDirection : String)
    (groupThreshold minConfidence : ℚ) (b : Block) (n : ℕ)
    (hmem : (b, n) ∈ process textBlocks readingDirection columnDirection
      groupThreshold minConfidence) :
    minConfidence ≤ b.confidence ∧
      ∃ t, b.text = some t ∧ t.text ≠ "" ∧ jsTrim t.text ≠ "" := by
  unfold process at hmem
  by_cases hnil : textBlocks = []
  · rw [if_pos hnil] at hmem
    exact absurd hmem (List.not_mem_nil _)
  · rw [if_neg hnil] at hmem
    dsimp only at hmem
    by_cases hval : textBlocks.filter (isValidBlock minConfidence) = []
    · rw [if_pos hval] at hmem
      exact absurd hmem (List.not_mem_nil _)
    · rw [if_neg hval] at hmem
      rw [List.mem_map] at hmem
      obtain ⟨p, hp, hpeq⟩ := hmem
      have hb : b ∈ (if readingDirection = "vertical" then
          processVerticalReading
            (textBlocks.filter (isValidBlock minConfidence))
            columnDirection groupThreshold
        else
          processHorizontalReading
            (textBlocks.filter (isValidBlock minConfidence))
            columnDirection groupThreshold) := by
        have hsnd : p.2 = b := congrArg Prod.fst hpeq
        rw [← hsnd]
        have hmm := List.mem_map_of_mem Prod.snd hp
        rwa [List.enum_map_snd] at hmm
      have hbv : b ∈ textBlocks.filter (isValidBlock minConfidence) := by
        split at hb
        · exact mem_processVerticalReading hb
        · exact mem_processHorizontalReading hb
      have hvalid := (List.mem_filter.mp hbv).2
      unfold isValidBlock at hvalid
      cases htex : b.text with
      | none => rw [htex] at hvalid; exact absurd hvalid (by simp)
      | some t =>
        rw [htex] at hvalid
        simp only [Bool.and_eq_true, decide_eq_true_eq, Bool.not_eq_eq_eq_not,
          Bool.not_true, beq_eq_false_iff_ne, ne_eq] at hvalid
        refine ⟨hvalid.1.1, t, rfl, hvalid.1.2, ?_⟩
        intro hempty
        rw [hempty] at hvalid
        simp at hvalid

/-- C9 witness: a single confident block with text "a" survives the
pipeline and satisfies the filter's guarantees. -/
theorem process_output_valid_witness :
    (1/10 : ℚ) ≤ (⟨0, 0, 1, 1, 1, some ⟨"a", 1⟩⟩ : Block).confidence ∧
      ∃ t, (⟨0, 0, 1, 1, 1, some ⟨"a", 1⟩⟩ : Block).text = some t ∧
        t.text ≠ "" ∧ jsTrim t.text ≠ "" := by
  refine process_output_valid [⟨0, 0, 1, 1, 1, some ⟨"a", 1⟩⟩] "vertical"
    "right-to-left" 20 (1/10) ⟨0, 0, 1, 1, 1, some ⟨"a", 1⟩⟩ 1 ?_
  have hv : isValidBlock (1/10) ⟨0, 0, 1, 1, 1, some ⟨"a", 1⟩⟩ = true := by
    simp [isValidBlock]
    exact ⟨by norm_num, by decide⟩
  rw [show process [⟨0, 0, 1, 1, 1, some ⟨"a", 1⟩⟩] "vertical"
      "right-to-left" 20 (1/10) = [(⟨0, 0, 1, 1, 1, some ⟨"a", 1⟩⟩, 1)] by
    norm_num [process, List.filter, hv, processVerticalReading,
      groupIntoColumns, List.foldl, groupStep, addToFirst, groupMean,
      centerX, sortColumnsByDirection, List.mergeSort, List.enum,
      List.enumFrom]]
  exact List.mem_singleton.mpr rfl

/-! ## C7: per-region recognition failures are isolated -/

/-- The default used to read list entries at a known-good index. -/
def emptyBlock : Block := ⟨0, 0, 0, 0, 0, none⟩

/-- C7: the recognition loop never aborts (its output has one entry per
region); a region whose decode fails yields exactly
`{ text: "", confidence: 0 }`; and each region's result depends only on
the oracle's answer for that region, so the other regions are
unaffected. -/
theorem recognize_failure_isolated
    (o o2 : Block → Except String TextRes) (regions : List Block)
    (j : ℕ) (e : String) (hj : j < regions.length) :
    (processRegions o regions).length = regions.length ∧
    (o (regions.getD j emptyBlock) = Except.error e →
      ((processRegions o regions).getD j emptyBlock).text = some ⟨"", 0⟩ ∧
      ((processRegions o regions).getD j emptyBlock).confidence = 0) ∧
    (o (regions.getD j emptyBlock) = o2 (regions.getD j emptyBlock) →
      (processRegions o regions).getD j emptyBlock =
        (processRegions o2 regions).getD j emptyBlock) := by
  have key : ∀ g : Block → Except String TextRes,
      (processRegions g regions).getD j emptyBlock =
        { regions.getD j emptyBlock with
            text := some (recognizeRegion g (regions.getD j emptyBlock))
            confidence := jsOrZero
              (recognizeRegion g (regions.getD j emptyBlock)).confidence } := by
    intro g
    unfold processRegions
    rw [List.getD_eq_getElem?_getD, List.getElem?_map,
      List.getElem?_eq_getElem hj, List.getD_eq_getElem?_getD,
      List.getElem?_eq_getElem hj]
    rfl
  refine ⟨by simp [processRegions], ?_, ?_⟩
  · intro herr
    rw [key o]
    unfold recognizeRegion
    rw [herr]
    exact ⟨rfl, by simp [jsOrZero]⟩
  · intro hoo
    rw [key o, key o2]
    unfold recognizeRegion
    rw [hoo]

/-- C7 witness: with an oracle that fails on the only region, the loop
still yields one entry, and it is the empty-text zero-confidence
result. -/
theorem recognize_failure_isolated_witness :
    (processRegions (fun _ => Except.error "decode failed")
        [emptyBlock]).length = 1 ∧
    ((processRegions (fun _ => Except.error "decode failed")
        [emptyBlock]).getD 0 emptyBlock).text = some ⟨"", 0⟩ := by
  have h := recognize_failure_isolated (fun _ => Except.error "decode failed")
    (fun _ => Except.error "decode failed") [emptyBlock] 0 "decode failed"
    (by simp)
  exact ⟨h.1, (h.2.1 rfl).1⟩

/-! ## C10: the reading-order validator overlap ratio -/

/-- C10: `calculateOverlap` is total and guarded: it returns
intersection-area over union-area when the union-area is positive and
`0` when the union-area is `0` (or negative), so the result always lies
in `[0, 1]`; no division by zero is ever performed. -/
theorem calculateOverlap_characterization (a b : Block) :
    (0 < blockUnionArea a b →
        calculateOverlap a b = blockOverlapArea a b / blockUnionArea a b) ∧
    (blockUnionArea a b = 0 → calculateOverlap a b = 0) ∧
    0 ≤ calculateOverlap a b ∧ calculateOverlap a b ≤ 1 := by
  have hov0 : 0 ≤ blockOverlapArea a b :=
    mul_nonneg (segOverlap_nonneg _ _ _ _) (segOverlap_nonneg _ _ _ _)
  refine ⟨fun h => by unfold calculateOverlap; rw [if_pos h],
    fun h => by unfold calculateOverlap; rw [if_neg (by rw [h]; exact lt_irrefl 0)],
    ?_, ?_⟩
  · unfold calculateOverlap
    rcases lt_or_ge 0 (blockUnionArea a b) with h | h
    · rw [if_pos h]
      exact div_nonneg hov0 h.le
    · rw [if_neg (not_lt.mpr h)]
  · unfold calculateOverlap
    rcases lt_or_ge 0 (blockUnionArea a b) with h | h
    · rw [if_pos h]
      rw [div_le_one h]
      rcases lt_or_eq_of_le hov0 with h' | h'
      · have hle := @overlapArea_le_areas a.x a.width a.y a.height b.x
          b.width b.y b.height h'
        unfold blockUnionArea
        unfold blockOverlapArea at *
        linarith [hle.1, hle.2]
      · linarith [h, h'.symm]
    · rw [if_neg (not_lt.mpr h)]
      norm_num

/-- C10 witness: two fully overlapping unit blocks have positive union
and overlap ratio `1`; two zero-area blocks have union `0` and ratio
`0`. -/
theorem calculateOverlap_characterization_witness :
    calculateOverlap ⟨0, 0, 1, 1, 1, none⟩ ⟨0, 0, 1, 1, 1, none⟩ =
        blockOverlapArea ⟨0, 0, 1, 1, 1, none⟩ ⟨0, 0, 1, 1, 1, none⟩ /
          blockUnionArea ⟨0, 0, 1, 1, 1, none⟩ ⟨0, 0, 1, 1, 1, none⟩ ∧
      calculateOverlap ⟨0, 0, 0, 0, 1, none⟩ ⟨0, 0, 0, 0, 1, none⟩ = 0 :=
  ⟨(calculateOverlap_characterization _ _).1
      (by norm_num [blockUnionArea, blockOverlapArea, segOverlap]),
    (calculateOverlap_characterization _ _).2.1
      (by norm_num [blockUnionArea, blockOverlapArea, segOverlap])⟩

/-! ## C5: cancel-current and the queued tasks -/

/-- A handler state with task 1 in flight and task 2 queued behind it. -/
def cancelExample : HandlerState :=
  ⟨[⟨1, 100⟩, ⟨2, 200⟩], some 1, true, true, 1, [1], [], []⟩

/-- C5 counterexample: cancelling the current task with task 2 still
queued leaves the queue empty, rejects task 2 ("Worker terminated"), and
dispatches nothing — the queued task is neither kept nor redispatched. -/
theorem cancelCurrentTask_rejects_queued :
    (cancelCurrentTask cancelExample).taskQueue = [] ∧
    (2, "Worker terminated") ∈ (cancelCurrentTask cancelExample).rejected ∧
    (cancelCurrentTask cancelExample).dispatched = [1] := by
  have hrej : (cancelCurrentTask cancelExample).rejected =
      [(1, "Task cancelled"), (2, "Worker terminated")] := rfl
  refine ⟨rfl, ?_, rfl⟩
  rw [hrej]
  simp

/-- Tearing the worker down and recreating it: all unfinished tasks are
rejected with "Worker terminated", the queue empties, and a fresh
generation starts. -/
theorem terminate_then_initialize_eq (s : HandlerState) :
    initializeWorker (terminateWorker s) =
      { taskQueue := [], currentTaskId := none, isWorkerBusy := false,
        workerAlive := true, generation := s.generation + 1,
        dispatched := s.dispatched, resolved := s.resolved,
        rejected := s.rejected ++
          s.taskQueue.map fun t => (t.id, "Worker terminated") } := by
  unfold terminateWorker initializeWorker
  cases hw : s.workerAlive <;> simp [hw]

/-- C5 (amended): when a task is in flight, `cancelCurrentTask` rejects
it ("Task cancelled") and, through the worker teardown, also rejects
every other queued task ("Worker terminated"); the queue is left empty,
nothing is redispatched, and the worker context is recreated as a fresh
generation. -/
theorem cancelCurrentTask_behavior (s : HandlerState) (id : ℕ)
    (h : s.currentTaskId = some id) :
    (cancelCurrentTask s).taskQueue = [] ∧
    (cancelCurrentTask s).isWorkerBusy = false ∧
    (cancelCurrentTask s).currentTaskId = none ∧
    (cancelCurrentTask s).workerAlive = true ∧
    (cancelCurrentTask s).generation = s.generation + 1 ∧
    (cancelCurrentTask s).dispatched = s.dispatched ∧
    ∀ t ∈ s.taskQueue,
      (t.id, if t.id = id then "Task cancelled" else "Worker terminated") ∈
        (cancelCurrentTask s).rejected := by
  unfold cancelCurrentTask
  rw [h]
  dsimp only
  by_cases hA : (s.taskQueue.any fun t => t.id == id) = true
  · rw [if_pos hA, terminate_then_initialize_eq]
    refine ⟨rfl, rfl, rfl, rfl, rfl, rfl, ?_⟩
    intro t ht
    by_cases hid : t.id = id
    · rw [if_pos hid]
      subst hid
      simp
    · rw [if_neg hid]
      have htf : t ∈ s.taskQueue.filter fun u => u.id ≠ id :=
        List.mem_filter.mpr ⟨ht, by simpa using hid⟩
      simp only [List.mem_append, List.mem_map]
      exact Or.inr ⟨t, htf, rfl⟩
  · rw [if_neg hA, terminate_then_initialize_eq]
    refine ⟨rfl, rfl, rfl, rfl, rfl, rfl, ?_⟩
    intro t ht
    have hid : t.id ≠ id := by
      intro heq
      exact hA (List.any_eq_true.mpr ⟨t, ht, by simpa using heq⟩)
    rw [if_neg hid]
    simp only [List.mem_append, List.mem_map]
    exact Or.inr ⟨t, ht, rfl⟩

/-- C5 witness: the amended description evaluated on the two-task
example. -/
theorem cancelCurrentTask_behavior_witness :
    (cancelCurrentTask cancelExample).taskQueue = [] ∧
    (cancelCurrentTask cancelExample).isWorkerBusy = false ∧
    (cancelCurrentTask cancelExample).currentTaskId = none ∧
    (cancelCurrentTask cancelExample).workerAlive = true ∧
    (cancelCurrentTask cancelExample).generation =
      cancelExample.generation + 1 ∧
    (cancelCurrentTask cancelExample).dispatched =
      cancelExample.dispatched ∧
    ∀ t ∈ cancelExample.taskQueue,
      (t.id, if t.id = 1 then "Task cancelled" else "Worker terminated") ∈
        (cancelCurrentTask cancelExample).rejected :=
  cancelCurrentTask_behavior cancelExample 1 rfl

/-! ## C8: single-slot FIFO dispatch -/

/-- The idle handler: empty queue, no current task, worker alive. -/
def idleState : HandlerState := ⟨[], none, false, true, 1, [], [], []⟩

/-- A handler with one queued task and a free worker slot. -/
def oneTaskState : HandlerState := ⟨[⟨5, 50⟩], none, false, true, 1, [], [], []⟩

/-- C8: the dispatcher is gated on the busy flag — while a job runs,
`processNextTask` dispatches nothing — and when the slot is free it
dispatches a queued task of minimal submission timestamp, marking the
slot busy; in the concrete scenario J1 (t=100) then J2 (t=200) submitted
to an idle worker, only J1 is dispatched, and J2 is dispatched exactly
when J1's completion is handled. -/
theorem queue_fifo (s : HandlerState) :
    (s.isWorkerBusy = true → processNextTask s = s) ∧
    (s.isWorkerBusy = false → s.taskQueue ≠ [] →
      ∃ t ∈ s.taskQueue, (∀ u ∈ s.taskQueue, t.timestamp ≤ u.timestamp) ∧
        processNextTask s =
          { s with
              isWorkerBusy := true
              currentTaskId := some t.id
              dispatched := s.dispatched ++ [t.id] }) ∧
    (submitTask (submitTask idleState ⟨1, 100⟩) ⟨2, 200⟩).dispatched =
      [1] ∧
    (submitTask (submitTask idleState ⟨1, 100⟩) ⟨2, 200⟩).taskQueue =
      [⟨1, 100⟩, ⟨2, 200⟩] ∧
    (handleTaskComplete
        (submitTask (submitTask idleState ⟨1, 100⟩) ⟨2, 200⟩) 1).resolved =
      [1] ∧
    (handleTaskComplete
        (submitTask (submitTask idleState ⟨1, 100⟩) ⟨2, 200⟩) 1).dispatched =
      [1, 2] := by
  refine ⟨?_, ?_, ?_, ?_, ?_, ?_⟩
  · intro hb
    unfold processNextTask
    rw [if_pos (Or.inl hb)]
  · intro hb hq
    have hcond : ¬ (s.isWorkerBusy = true ∨ s.taskQueue = []) := by
      simp [hb, hq]
    unfold processNextTask
    rw [if_neg hcond]
    have hlen : (s.taskQueue.mergeSort fun a b =>
        decide (a.timestamp ≤ b.timestamp)).length = s.taskQueue.length :=
      List.length_mergeSort s.taskQueue
    cases hL : s.taskQueue.mergeSort fun a b =>
        decide (a.timestamp ≤ b.timestamp) with
    | nil =>
      exfalso
      rw [hL] at hlen
      exact hq (List.eq_nil_of_length_eq_zero hlen.symm)
    | cons t T =>
      have htmem : t ∈ s.taskQueue := by
        have h1 : t ∈ s.taskQueue.mergeSort fun a b =>
            decide (a.timestamp ≤ b.timestamp) := by
          rw [hL]
          exact List.mem_cons_self t T
        exact List.mem_mergeSort.mp h1
      have htrans : ∀ a b c : Task,
          decide (a.timestamp ≤ b.timestamp) →
          decide (b.timestamp ≤ c.timestamp) →
          decide (a.timestamp ≤ c.timestamp) := by
        intro a b c h1 h2
        simp only [decide_eq_true_eq] at *
        exact le_trans h1 h2
      have htotal : ∀ a b : Task,
          (decide (a.timestamp ≤ b.timestamp) ||
            decide (b.timestamp ≤ a.timestamp)) = true := by
        intro a b
        rcases le_total a.timestamp b.timestamp with h | h <;> simp [h]
      have hpw := List.sorted_mergeSort htrans htotal s.taskQueue
      rw [hL] at hpw
      have hmin : ∀ u ∈ s.taskQueue, t.timestamp ≤ u.timestamp := by
        intro u hu
        have hu2 : u ∈ t :: T := by
          rw [← hL]
          exact List.mem_mergeSort.mpr hu
        rcases List.mem_cons.mp hu2 with rfl | hu3
        · exact le_refl _
        · have := (List.pairwise_cons.mp hpw).1 u hu3
          simpa using this
      exact ⟨t, htmem, hmin, rfl⟩
  all_goals
    simp [idleState, submitTask, processNextTask, handleTaskComplete,
      List.filter]

/-- C8 witness: with one queued task and a free slot, the dispatcher
picks it (it is trivially timestamp-minimal) and marks the slot busy. -/
theorem queue_fifo_witness :
    ∃ t ∈ oneTaskState.taskQueue,
      (∀ u ∈ oneTaskState.taskQueue, t.timestamp ≤ u.timestamp) ∧
      processNextTask oneTaskState =
        { oneTaskState with
            isWorkerBusy := true
            currentTaskId := some t.id
            dispatched := oneTaskState.dispatched ++ [t.id] } :=
  (queue_fifo oneTaskState).2.1 rfl (by simp [oneTaskState])

end NdlOcr
